import Mathlib

/-!
Verification of the sharded vector-store core of obsidian-rag-search.

This file is a shallow embedding, in Lean, of the components the spec's
testable properties talk about:

* the consistent-hash ring (src/unnamed/part_018, class HashRing):
  the 32-bit FNV-1a hash with avalanche mixing, sorted virtual-node list,
  addNode / removeNode / getNode / diffMovedIds;
* the LRU cache (src/unnamed/part_001, class LRU): an insertion-ordered
  map (JS Map), get re-appends, set evicts the oldest entry past capacity
  and hands it to the eviction callback;
* the shard manager (src/src/api/infrastructure/shardManager.ts):
  getShard / persistShard / setShard / moveDocument / rebalance /
  autoRebalance, over a state holding the shard count, the ring, the LRU
  cache and the on-disk shard files;
* the document repository (src/src/infrastructure/documentRepository.ts):
  saveMany partitioning and the scatter-gather search.

Modelling conventions:

* JavaScript numbers used as 32-bit values are Nat with explicit % 2^32
  (Math.imul / << / >>> 0 all agree with arithmetic mod 2^32);
* the runtime is single-threaded cooperative (spec section 5); async code is
  embedded as sequential state passing, and the fire-and-forget
  this.setShard(db, i) in rebalance's first grow loop is modelled with its
  synchronous cache mutation and its eviction write-back applied in program
  order;
* exceptions are Except String; a thrown error is .error with the message;
* a shard's Orama index is abstracted to the list of its document ids
  (ShardDb, a list of strings) for the manager-level claims, and to an
  arbitrary document type with a score function for the search-level
  claims (the similarity score of a document for the one fixed query
  vector of the claim);
* Orama behaviour used by the code: insert throws when the id is already
  in that shard's store, remove of a missing id is a no-op, a search
  without an explicit limit uses Orama's default limit of 10, hits are
  those with similarity at least the threshold, sorted by descending
  score;
* JavaScript Array.prototype.sort is stable; the descending sort by score
  is modelled by the stable List.insertionSort;
* strings are hashed by their UTF-16 code units (charCodeAt); for the
  ASCII strings appearing here this is Char.toNat of each character.
-/

/-- One step of FNV-1a: xor the next code unit, multiply by the prime,
all mod 2^32 (Math.imul followed by a zero-fill shift). -/
def fnvStep (h c : Nat) : Nat := ((h ^^^ c) * 0x01000193) % 4294967296

/-- The avalanche mixing tail of HashRing.fnv1a: the five shift-add /
shift-xor lines, each addition reduced mod 2^32 as the >>> 0 does. -/
def fnvMix (h0 : Nat) : Nat :=
  let h1 := (h0 + h0 * 8192) % 4294967296
  let h2 := h1 ^^^ (h1 / 128)
  let h3 := (h2 + h2 * 8) % 4294967296
  let h4 := h3 ^^^ (h3 / 131072)
  (h4 + h4 * 32) % 4294967296

/-- UTF-16 code units of a string; identical to charCodeAt for the
basic-multilingual-plane strings used throughout. -/
def jsCodeUnits (s : String) : List Nat := s.data.map Char.toNat

/-- HashRing.fnv1a: fold the FNV-1a step over the code units starting at
the offset basis, then apply the avalanche mixing. -/
def fnv1a (s : String) : Nat := fnvMix ((jsCodeUnits s).foldl fnvStep 0x811c9dc5)

/-- A virtual node of the ring: its 32-bit hash and the real node id. -/
structure VNode where
  hash : Nat
  node : String
deriving DecidableEq, Repr

/-- The consistent-hash ring: replicas per node, the hash-sorted virtual
node list, and the set (insertion-ordered, duplicate-free) of registered
node ids. -/
structure HashRing where
  replicas : Nat
  ring : List VNode
  nodes : List String
deriving Repr

/-- A fresh ring with the given replica count (the constructor;
opts.replicas defaults to 100). -/
def HashRing.mk0 (replicas : Nat := 100) : HashRing :=
  { replicas := replicas, ring := [], nodes := [] }

/-- HashRing.insert: the lower-bound binary-search splice.  On the sorted
ring it places the new virtual node before the first entry whose hash is
not smaller, which is this list insertion. -/
def ringInsert (vn : VNode) : List VNode → List VNode
  | [] => [vn]
  | x :: xs => if x.hash < vn.hash then x :: ringInsert vn xs else vn :: x :: xs

/-- The virtual nodes a node id contributes: hash of "id:i" for
i in [0, replicas). -/
def vnodesOf (replicas : Nat) (nodeId : String) : List VNode :=
  (List.range replicas).map (fun i => ⟨fnv1a (nodeId ++ ":" ++ toString i), nodeId⟩)

/-- HashRing.addNode: no-op when the id is registered; otherwise insert
each replica's virtual node in order and register the id. -/
def HashRing.addNode (r : HashRing) (nodeId : String) : HashRing :=
  if nodeId ∈ r.nodes then r
  else
    { r with
      ring := (vnodesOf r.replicas nodeId).foldl (fun acc vn => ringInsert vn acc) r.ring
      nodes := r.nodes ++ [nodeId] }

/-- HashRing.removeNode: no-op when absent; otherwise unregister and strip
every virtual node of that id. -/
def HashRing.removeNode (r : HashRing) (nodeId : String) : HashRing :=
  if nodeId ∈ r.nodes then
    { r with
      ring := r.ring.filter (fun vn => vn.node ≠ nodeId)
      nodes := r.nodes.erase nodeId }
  else r

/-- The ring lookup on the sorted virtual-node list: the upper-bound
binary search returns the first entry with hash strictly above the key's
hash, wrapping to index 0; none on an empty ring (the thrown
"Hash ring is empty"). -/
def ringLookup (h : Nat) (l : List VNode) : Option String :=
  match l with
  | [] => none
  | v0 :: _ => some (((l.find? (fun vn => decide (h < vn.hash))).map VNode.node).getD v0.node)

/-- HashRing.getNode, with the empty-ring exception as none. -/
def HashRing.getNode (r : HashRing) (key : String) : Option String :=
  ringLookup (fnv1a key) r.ring

/-- HashRing.getNode as the Except-valued computation it is at call
sites (getNode throws on an empty ring). -/
def HashRing.getNodeE (r : HashRing) (key : String) : Except String String :=
  match r.getNode key with
  | none => .error "Hash ring is empty"
  | some n => .ok n

/-- A ring over the node ids "0" .. "n-1", added in order. -/
def buildRing (n : Nat) (replicas : Nat) : HashRing :=
  (List.range n).foldl (fun acc i => acc.addNode (toString i)) (HashRing.mk0 replicas)

/-- A ring built by adding the given node ids in list order. -/
def buildRingOf (ns : List String) (replicas : Nat) : HashRing :=
  ns.foldl (fun acc n => acc.addNode n) (HashRing.mk0 replicas)

/-- An id whose assignment changed, as produced by diffMovedIds. -/
structure Move where
  id : String
  fromNode : String
  toNode : String
deriving DecidableEq, Repr

/-- HashRing.diffMovedIds: compare this ring's assignment of every id
against a freshly constructed ring — built with the default constructor,
hence 100 replicas — over nodes "0" .. "newNumShards-1", collecting the
ids whose assignment changed.  getNode on an empty ring throws, so the
whole computation is Except-valued. -/
def HashRing.diffMovedIds (r : HashRing) (newNumShards : Nat) (allIds : List String) :
    Except String (List Move) :=
  let newRing := buildRing newNumShards 100
  allIds.foldlM
    (fun moved id => do
      let f ← r.getNodeE id
      let t ← newRing.getNodeE id
      if f ≠ t then pure (moved ++ [⟨id, f, t⟩]) else pure moved)
    []

/-- Modelled from the spec: the hashring variant imported by
shardManager.ts ("../utils/hashring.js", a file absent from src/ — only
the variant without this accessor, src/unnamed/part_018, is present)
exposes replicasCount, the "virtual nodes per real node" count of spec
section 3 (replicas, default 100), read by rebalance when constructing
the replacement ring. -/
def HashRing.replicasCount (r : HashRing) : Nat := r.replicas

/-- The LRU cache of src/unnamed/part_001: a JS Map, i.e. an
insertion-ordered association list with unique keys, head oldest, plus
the fixed capacity. -/
structure LRUc (K V : Type) where
  max : Nat
  entries : List (K × V)
deriving Repr

/-- LRU.get: on a hit, delete and re-append the entry (mark it
most-recently-used) and return the value; on a miss return none and leave
the cache unchanged. -/
def LRUc.get {K V : Type} [DecidableEq K] (c : LRUc K V) (k : K) :
    Option V × LRUc K V :=
  match c.entries.find? (fun p => decide (p.1 = k)) with
  | none => (none, c)
  | some p =>
    (some p.2, { c with entries := (c.entries.eraseP (fun q => decide (q.1 = k))) ++ [(k, p.2)] })

/-- LRU.set: delete any existing entry for the key, append the new one,
and if the size now exceeds the capacity pop the oldest entry and return
it (the pair handed to onEvict); otherwise return none. -/
def LRUc.set {K V : Type} [DecidableEq K] (c : LRUc K V) (k : K) (v : V) :
    LRUc K V × Option (K × V) :=
  let e2 := (c.entries.eraseP (fun q => decide (q.1 = k))) ++ [(k, v)]
  if c.max < e2.length then
    match e2 with
    | [] => ({ c with entries := [] }, none)
    | p :: rest => ({ c with entries := rest }, some p)
  else ({ c with entries := e2 }, none)

/-- The contents of one shard's Orama index, abstracted to its document
ids (data.docs.sharedInternalDocumentStore.internalIdToId). -/
abbrev ShardDb := List String

/-- The ShardManager state: shard count, hash ring, LRU cache of resident
shards, and the on-disk shard files (none = file absent). -/
structure SM where
  numOfShards : Nat
  ring : HashRing
  cache : LRUc Nat ShardDb
  disk : Nat → Option ShardDb

/-- The cached handle for a shard index, if resident. -/
def SM.cacheLookup (s : SM) (idx : Nat) : Option ShardDb :=
  (s.cache.entries.find? (fun p => decide (p.1 = idx))).map Prod.snd

/-- Overwrite the resident handle for a shard index in place (the JS
mutation of the cached Orama object). -/
def SM.updateCached (s : SM) (idx : Nat) (db : ShardDb) : SM :=
  { s with cache := ⟨s.cache.max, s.cache.entries.map (fun p => if p.1 = idx then (p.1, db) else p)⟩ }

/-- ShardManager.persistShard: serialize and write the shard's file. -/
def SM.persistShard (s : SM) (db : ShardDb) (idx : Nat) : SM :=
  { s with disk := fun j => if j = idx then some db else s.disk j }

/-- ShardManager.setShard: cache.set with the write-back onEvict — an
evicted shard is persisted before the call returns. -/
def SM.setShard (s : SM) (db : ShardDb) (idx : Nat) : SM :=
  let res := s.cache.set idx db
  let s2 : SM := { s with cache := res.1 }
  match res.2 with
  | none => s2
  | some kv => s2.persistShard kv.2 kv.1

/-- ShardManager.getShard: cache hit returns the resident handle; a miss
reads the shard's file (readBinary rejects when the file is missing),
restores it, and inserts it via setShard (evicting and writing back the
least-recently-used shard when over capacity). -/
def SM.getShard (s : SM) (idx : Nat) : Except String (ShardDb × SM) :=
  let res := s.cache.get idx
  match res.1 with
  | some db => .ok (db, { s with cache := res.2 })
  | none =>
    match s.disk idx with
    | none => .error "ENOENT: shard file missing"
    | some db => .ok (db, s.setShard db idx)

/-- ShardManager.getNode: delegate to the ring. -/
def SM.getNode (s : SM) (id : String) : Option String := s.ring.getNode id

/-- parseInt(nodeId, 10) on the ring's node ids, which are always decimal
digit strings (nodeName is i.toString()). -/
def parseNode (s : String) : Nat :=
  s.data.foldl (fun acc c => acc * 10 + (c.toNat - 48)) 0

/-- ShardManager.moveDocument: load both shards, fetch the document from
the source handle, insert it into the destination when found (Orama's
insert throws DOCUMENT_ALREADY_DEFINED when the id is already in that
shard), then remove it from the source handle — a mutation of the object
returned by getShard, visible only while that object is still the cached
entry (loading the destination may have evicted and written back the
source). -/
def SM.moveDocument (s : SM) (id : String) (fromIdx toIdx : Nat) : Except String SM := do
  let fs ← s.getShard fromIdx
  let ts ← fs.2.getShard toIdx
  let fromDb := fs.1
  let toDb := ts.1
  let s2 := ts.2
  if id ∈ fromDb then
    if id ∈ toDb then
      .error "DOCUMENT_ALREADY_DEFINED"
    else
      let s3 := s2.updateCached toIdx (toDb ++ [id])
      match s3.cacheLookup fromIdx with
      | some db => .ok (s3.updateCached fromIdx (db.erase id))
      | none => .ok s3
  else
    .ok s2

/-- The id-collection pass of rebalance: load every current shard through
the cache and concatenate their id lists. -/
def SM.collectIds (s : SM) : Except String (List String × SM) :=
  (List.range s.numOfShards).foldlM
    (fun acc i => do
      let r ← acc.2.getShard i
      pure (acc.1 ++ r.1, r.2))
    (([] : List String), s)

/-- The first grow loop of rebalance: for i from this.cache.length to
newNumShards-1, put a fresh empty shard into the cache (the loop neither
awaits nor persists; its eviction write-backs still run). -/
def SM.growPhase1 (s : SM) (newN : Nat) : SM :=
  let start := s.cache.entries.length
  (List.range (newN - start)).foldl (fun st j => st.setShard [] (start + j)) s

/-- The second grow loop of rebalance: for each genuinely new index,
cache a fresh empty shard and persist it. -/
def SM.growPhase2 (s : SM) (cur newN : Nat) : SM :=
  (List.range (newN - cur)).foldl
    (fun st j => (st.setShard [] (cur + j)).persistShard [] (cur + j)) s

/-- The relocation loop of rebalance: each move in order, every failure
propagating (the loop has no try/catch). -/
def SM.runMoves (s : SM) (moves : List Move) : Except String SM :=
  moves.foldlM
    (fun st mv => st.moveDocument mv.id (parseNode mv.fromNode) (parseNode mv.toNode)) s

/-- The persistence pass of rebalance: for i below newNumShards,
cache.get(i) (which marks the entry most-recently-used) and persist the
shard when resident. -/
def SM.persistCached (s : SM) (newN : Nat) : SM :=
  (List.range newN).foldl
    (fun st i =>
      let res := st.cache.get i
      match res.1 with
      | some db => (({ st with cache := res.2 } : SM).persistShard db i)
      | none => { st with cache := res.2 })
    s

/-- The shrink pass of rebalance: delete the files of the dropped
indices. -/
def SM.shrinkPhase (s : SM) (cur newN : Nat) : SM :=
  (List.range (cur - newN)).foldl
    (fun st j =>
      let i := newN + j
      if (st.disk i).isSome then
        { st with disk := fun j2 => if j2 = i then none else st.disk j2 }
      else st)
    s

/-- The replacement ring rebalance installs: nodes "0" .. "newN-1" with
this.ring.replicasCount replicas. -/
def SM.rebalanceNewRing (s : SM) (newN : Nat) : HashRing :=
  buildRing newN s.ring.replicasCount

/-- The final pass of rebalance: install the new ring and shard count and
rebuild the cache at capacity newNumShards, copying over the resident
handles (cache.get on the old cache, set with the write-back onEvict on
the new one). -/
def SM.finalizePhase (s : SM) (newRing : HashRing) (newN : Nat) : SM :=
  let s1 : SM := { s with ring := newRing, numOfShards := newN }
  let res := (List.range newN).foldl
    (fun (p : SM × LRUc Nat ShardDb) i =>
      let r := p.1.cache.get i
      match r.1 with
      | some db =>
        let st2 : SM := { p.1 with cache := r.2 }
        let q := p.2.set i db
        match q.2 with
        | none => (st2, q.1)
        | some kv => (st2.persistShard kv.2 kv.1, q.1)
      | none => ({ p.1 with cache := r.2 }, p.2))
    (s1, (⟨newN, []⟩ : LRUc Nat ShardDb))
  { res.1 with cache := res.2 }

/-- ShardManager.rebalance, phase by phase in source order: no-op on an
equal count; collect all ids; build the replacement ring; when growing,
the two grow loops; compute the moved set from the old ring via
diffMovedIds; relocate; persist the resident shards; when shrinking,
delete dropped files; install ring, count and the rebuilt cache. -/
def SM.rebalance (s : SM) (newN : Nat) : Except String SM :=
  if newN = s.numOfShards then .ok s
  else do
    let cur := s.numOfShards
    let col ← s.collectIds
    let allIds := col.1
    let s1 := col.2
    let newRing := s.rebalanceNewRing newN
    let s2 := if cur < newN then (s1.growPhase1 newN).growPhase2 cur newN else s1
    let moves ← s.ring.diffMovedIds newN allIds
    let s3 ← s2.runMoves moves
    let s4 := s3.persistCached newN
    let s5 := if newN < cur then s4.shrinkPhase cur newN else s4
    .ok (s5.finalizePhase newRing newN)

/-- The contents of a shard as observed by the system: the resident
handle when cached, else the file. -/
def SM.shardContents (s : SM) (i : Nat) : ShardDb :=
  match s.cacheLookup i with
  | some db => db
  | none => (s.disk i).getD []

/-- Total document count over the first n shards. -/
def SM.totalDocs (s : SM) (n : Nat) : Nat :=
  ((List.range n).map (fun i => (s.shardContents i).length)).sum

/-- The error message of a failed computation, if any. -/
def exceptMsg {α : Type} : Except String α → Option String
  | .error e => some e
  | .ok _ => none

/-! ### autoRebalance -/

/-- ShardManager.autoRebalance's decision: the argument it passes to
rebalance, or none when it performs no rebalance call.  sizes i is the
stat size of shard i's file, none when the file does not exist (missing
files are skipped).  The average is in MB over the existing files; the
MAX_SHARD_SIZE_MB / MIN_SHARD_SIZE_MB / MIN_SHARDS / MAX_SHARDS constants
are 500, 100, 2, 32.  The JS code compares the floating-point average
totalSize / count / 2^20 against the thresholds; for integer byte totals
below 2^53 and the shard counts in range, those comparisons coincide with
the exact integer cross-multiplications used here. -/
def autoRebalanceTarget (n : Nat) (sizes : Nat → Option Nat) : Option Nat :=
  let present := (List.range n).filterMap sizes
  let existingShardCount := present.length
  let totalSize := present.sum
  if existingShardCount = 0 then none
  else
    let newNumShards :=
      if 500 * (1024 * 1024) * existingShardCount < totalSize then min 32 (n * 2)
      else if totalSize < 100 * (1024 * 1024) * existingShardCount ∧ 2 < n then
        max 2 (n / 2)
      else n
    if newNumShards ≠ n then some newNumShards else none

/-- The auto-rebalance decision as the claim words it: above the 500MB
average call rebalance with min(32, 2n); below 100MB with more than 2
shards call rebalance with max(2, n/2); otherwise no call. -/
def claimedAutoRebalanceTarget (n : Nat) (sizes : Nat → Option Nat) : Option Nat :=
  let present := (List.range n).filterMap sizes
  let existingShardCount := present.length
  let totalSize := present.sum
  if existingShardCount = 0 then none
  else
    if 500 * (1024 * 1024) * existingShardCount < totalSize then some (min 32 (n * 2))
    else if totalSize < 100 * (1024 * 1024) * existingShardCount ∧ 2 < n then
      some (max 2 (n / 2))
    else none

/-! ### DocumentRepository.saveMany -/

/-- A document as saveMany sees it: only its (possibly missing) id is
relevant at this layer. -/
structure SDoc where
  id : Option String
deriving DecidableEq, Repr

/-- Append a document to its partition's bucket, creating the bucket when
the key is not one of the pre-initialized shard keys. -/
def pushGroup (gs : List (String × List SDoc)) (k : String) (d : SDoc) :
    List (String × List SDoc) :=
  if gs.any (fun g => g.1 = k) then
    gs.map (fun g => if g.1 = k then (g.1, g.2 ++ [d]) else g)
  else gs ++ [(k, [d])]

/-- The partitioning loop of saveMany: buckets for "0" .. "n-1" are
initialized empty, documents without an id are skipped (continue), the
rest are routed by getNode(String(id)) — which throws on an empty
ring. -/
def buildStep (s : SM) (gs : List (String × List SDoc)) (d : SDoc) :
    Except String (List (String × List SDoc)) :=
  match d.id with
  | none => .ok gs
  | some i => do
    let k ← s.ring.getNodeE i
    .ok (pushGroup gs k d)

def SM.buildGroups (s : SM) (docs : List SDoc) :
    Except String (List (String × List SDoc)) :=
  docs.foldlM (buildStep s)
    ((List.range s.numOfShards).map (fun i => (toString i, [])))

/-- Orama insert at the id level: throws DOCUMENT_ALREADY_DEFINED when the
id is already in the shard's store. -/
def oramaInsert (db : ShardDb) (id : String) : Except String ShardDb :=
  if id ∈ db then .error "DOCUMENT_ALREADY_DEFINED" else .ok (db ++ [id])

/-- Orama updateMultiple(shard, ids, docs): remove the given ids, then
insert every document of the batch.  String(undefined) is the literal
"undefined". -/
def oramaUpdateMultiple (db : ShardDb) (ids : List String) (docs : List SDoc) :
    Except String ShardDb :=
  docs.foldlM (fun d doc => oramaInsert d (doc.id.getD "undefined"))
    (ids.foldl (fun d i => d.erase i) db)

/-- One per-shard task of saveMany: skip an empty bucket; otherwise load
the shard, find which of the batch ids already exist in its store, run
the updateMultiple upsert on the cached handle, and persist it. -/
def SM.processGroup (s : SM) (g : String × List SDoc) : Except String SM :=
  if g.2.isEmpty then .ok s
  else do
    let shardIdx := parseNode g.1
    let r ← s.getShard shardIdx
    let shard := r.1
    let docIds := g.2.map (fun d => d.id.getD "undefined")
    let existingDocIds := docIds.filter (fun i => i ∈ shard)
    let newDb ← oramaUpdateMultiple shard existingDocIds g.2
    .ok (((r.2).updateCached shardIdx newDb).persistShard newDb shardIdx)

/-- DocumentRepository.saveMany: early return on an empty batch, then the
partitioning loop followed by the per-shard upsert tasks (concurrent in
the source over disjoint shards, awaited together; embedded in bucket
order), the whole batch failing if any per-shard task fails. -/
def SM.saveMany (s : SM) (docs : List SDoc) : Except String SM :=
  if docs.isEmpty then .ok s
  else do
    let gs ← s.buildGroups docs
    gs.foldlM (fun st g => st.processGroup g) s

/-! ### DocumentRepository.search -/

/-- The options of a search call (MaxMarginalRelevanceSearchOptions):
k, the optional fetchK and lambda, and the metadata filter, modelled as a
predicate over the abstract document type. -/
structure SearchOptions (α : Type) where
  k : Nat
  fetchK : Option Nat
  lambda : Option ℚ
  filter : α → Bool

/-- The per-shard Orama query search issues: mode vector, the caller's
where-filter, limit, offset 0 and the similarity threshold. -/
structure ShardQuery (α : Type) where
  whereFilter : α → Bool
  limit : Option Nat
  offset : Nat
  similarity : ℚ

/-- The query DocumentRepository.search builds for every shard:
where := filter, limit := fetchK, offset := 0,
similarity := lambda ?? 0.6 (the rational mkRat 6 10 is exactly 0.6). -/
def repoShardQuery {α : Type} (o : SearchOptions α) : ShardQuery α :=
  { whereFilter := o.filter
    limit := o.fetchK
    offset := 0
    similarity := o.lambda.getD (mkRat 6 10) }

/-- The per-shard limit as the claim words it: fetchK ?? k. -/
def claimedShardLimit {α : Type} (o : SearchOptions α) : Option Nat :=
  some (o.fetchK.getD o.k)

/-- Orama's default limit, used when a query carries no explicit limit. -/
def oramaDefaultLimit : Nat := 10

/-- Descending order on scored hits: a before b when b's score is at most
a's. -/
def scoreGe {α : Type} (a b : α × ℚ) : Prop := b.2 ≤ a.2

instance {α : Type} : DecidableRel (@scoreGe α) :=
  fun a b => inferInstanceAs (Decidable (b.2 ≤ a.2))

instance {α : Type} : IsTotal (α × ℚ) scoreGe :=
  ⟨fun a b => le_total b.2 a.2⟩

instance {α : Type} : IsTrans (α × ℚ) scoreGe :=
  ⟨fun _ _ _ h1 h2 => le_trans h2 h1⟩

/-- The documents of a shard matching a query: passing the where-filter
with similarity at least the threshold.  score is the similarity of each
document to the one fixed query vector. -/
def shardMatches {α : Type} (score : α → ℚ) (q : ShardQuery α) (shard : List α) : List α :=
  shard.filter (fun d => q.whereFilter d && decide (q.similarity ≤ score d))

/-- One shard's Orama vector search: the matching documents with their
scores, sorted by descending score (stably), truncated to the query's
limit (Orama's default 10 when none). -/
def oramaSearchHits {α : Type} (score : α → ℚ) (q : ShardQuery α) (shard : List α) :
    List (α × ℚ) :=
  (((shardMatches score q shard).map (fun d => (d, score d))).insertionSort scoreGe).take
    (q.limit.getD oramaDefaultLimit)

/-- DocumentRepository.search: issue the same query against every shard,
concatenate the hit lists, stable-sort the combined list by descending
score, truncate to k. -/
def repoSearch {α : Type} (score : α → ℚ) (shards : List (List α)) (o : SearchOptions α) :
    List (α × ℚ) :=
  ((shards.flatMap (oramaSearchHits score (repoShardQuery o))).insertionSort scoreGe).take o.k

/-! ### Concrete states for the counterexamples and witnesses -/

/-- Four on-disk shards; "doc12" lives in shard 3, where both the 4-node
and the 8-node ring route it. -/
def c1Disk : Nat → Option ShardDb := fun i =>
  if i ≤ 2 then some [] else if i = 3 then some ["doc12"] else none

/-- A manager over 4 shards with the default cache capacity 3 and an
initially empty cache, as after ShardManager.load of 4 shard files with
the loading pass's residents since evicted. -/
def c1State : SM :=
  { numOfShards := 4, ring := buildRing 4 100, cache := ⟨3, []⟩, disk := c1Disk }

/-- Two on-disk shards both holding "doc4" (a duplicate across shards,
e.g. left behind by an earlier interrupted rebalance); the 2-node ring
routes "doc4" to shard 1. -/
def c3Disk : Nat → Option ShardDb := fun i =>
  if i = 0 then some ["doc4"] else if i = 1 then some ["doc4"] else none

/-- A manager over those two shards. -/
def c3State : SM :=
  { numOfShards := 2, ring := buildRing 2 100, cache := ⟨3, []⟩, disk := c3Disk }

/-- A single-shard manager with an empty shard. -/
def c9State : SM :=
  { numOfShards := 1, ring := buildRing 1 100, cache := ⟨3, []⟩
    disk := fun i => if i = 0 then some ([] : ShardDb) else none }

/-! ### Auxiliary definitions used by the theorem statements -/

/-- The moved set as specified: the ids whose assignment differs between
the old ring and the new ring, with their source and destination. -/
def movedSpec (oldRing newRing : HashRing) (ids : List String) : List Move :=
  ids.filterMap (fun id =>
    match oldRing.getNode id, newRing.getNode id with
    | some f, some t => if f ≠ t then some ⟨id, f, t⟩ else none
    | _, _ => none)

/-- A membership-mutating call on the ring. -/
inductive RingOp where
  | add (id : String)
  | remove (id : String)
deriving DecidableEq, Repr

/-- Apply one addNode / removeNode call. -/
def applyOp (r : HashRing) : RingOp → HashRing
  | .add id => r.addNode id
  | .remove id => r.removeNode id

/-- Apply a call sequence in order. -/
def applyOps (r : HashRing) (ops : List RingOp) : HashRing :=
  ops.foldl applyOp r

/-- Run a sequence of LRU set calls, collecting the evicted entries in
order. -/
def lruFoldSet {K V : Type} [DecidableEq K] (c : LRUc K V) (ps : List (K × V)) :
    LRUc K V × List (K × V) :=
  ps.foldl
    (fun acc p => ((acc.1.set p.1 p.2).1, acc.2 ++ ((acc.1.set p.1 p.2).2).toList))
    (c, [])

/-- The claim-C8 counterexample size oracle: 32 shard files of 600MB. -/
def c8Sizes : Nat → Option Nat := fun i => if i < 32 then some 629145600 else none

/-- Order of virtual nodes by hash (the ring's sort order). -/
def hashLe (a b : VNode) : Prop := a.hash ≤ b.hash

/-- Strict order of virtual nodes by hash. -/
def hashLt (a b : VNode) : Prop := a.hash < b.hash

instance : DecidableRel hashLe :=
  fun a b => inferInstanceAs (Decidable (a.hash ≤ b.hash))

instance : IsTotal VNode hashLe := ⟨fun a b => Nat.le_total a.hash b.hash⟩

instance : IsTrans VNode hashLe := ⟨fun _ _ _ h1 h2 => Nat.le_trans h1 h2⟩

instance : IsAntisymm VNode hashLt :=
  ⟨fun _ _ h1 h2 => absurd (Nat.lt_trans h1 h2) (Nat.lt_irrefl _)⟩

/-- The well-formedness invariant every ring reachable through the class
interface satisfies: the registered-node list is duplicate-free (it is a
JS Set), every virtual node belongs to a registered node, and every
registered node owns at least one virtual node. -/
def ringWF (r : HashRing) : Prop :=
  r.nodes.Nodup ∧ (∀ vn ∈ r.ring, vn.node ∈ r.nodes) ∧
    (∀ n ∈ r.nodes, ∃ vn ∈ r.ring, vn.node = n)

/-- The ring keeps clear of node n: it is unregistered and owns no
virtual node. -/
def ringAvoids (n : String) (r : HashRing) : Prop :=
  n ∉ r.nodes ∧ ∀ vn ∈ r.ring, vn.node ≠ n

/-- Score table for the scatter-gather witness: similarity of each
document to the fixed query vector. -/
def c2Score : String → ℚ := fun s => if s = "a" then 9 else if s = "b" then 7 else 5

/-- Two disjoint shards for the scatter-gather witness. -/
def c2Shards : List (List String) := [["a", "c"], ["b"]]

/-- Search options for the scatter-gather witness. -/
def c2Opts : SearchOptions String :=
  { k := 2, fetchK := some 10, lambda := none, filter := fun _ => true }

/-- A search call without fetchK: the claim predicts a per-shard limit of
k = 5. -/
def c4Opts : SearchOptions String :=
  { k := 5, fetchK := none, lambda := none, filter := fun _ => true }

/-- Two node ids whose first virtual nodes collide under fnv1a:
fnv1a("gwzx:0") = fnv1a("16cd:0") = 3832272285. -/
def c5NodesA : List String := ["gwzx", "16cd"]

/-- The same node set registered in the opposite order. -/
def c5NodesB : List String := ["16cd", "gwzx"]

/-! ### Ring lemmas -/

theorem ringInsert_eq_orderedInsert (vn : VNode) (l : List VNode) :
    ringInsert vn l = l.orderedInsert hashLe vn := by
  induction l with
  | nil => rfl
  | cons x xs ih =>
    simp only [ringInsert, List.orderedInsert]
    by_cases h : x.hash < vn.hash
    · rw [if_pos h, if_neg (show ¬ hashLe vn x from Nat.not_le.mpr h), ih]
    · rw [if_neg h, if_pos (show hashLe vn x from Nat.not_lt.mp h)]

theorem foldl_ringInsert_perm (vns acc : List VNode) :
    (vns.foldl (fun a v => ringInsert v a) acc).Perm (vns ++ acc) := by
  induction vns generalizing acc with
  | nil => simp
  | cons v vns ih =>
    simp only [List.foldl_cons, List.cons_append]
    have h1 := ih (ringInsert v acc)
    have h2 : (ringInsert v acc).Perm (v :: acc) := by
      rw [ringInsert_eq_orderedInsert]; exact List.perm_orderedInsert _ _ _
    exact h1.trans ((List.Perm.append_left vns h2).trans List.perm_middle)

theorem foldl_ringInsert_sorted (vns : List VNode) {acc : List VNode}
    (h : acc.Sorted hashLe) :
    (vns.foldl (fun a v => ringInsert v a) acc).Sorted hashLe := by
  induction vns generalizing acc with
  | nil => exact h
  | cons v vns ih =>
    simp only [List.foldl_cons]
    exact ih (by rw [ringInsert_eq_orderedInsert]; exact h.orderedInsert v acc)

theorem mem_vnodesOf {rep : Nat} {n : String} {vn : VNode}
    (h : vn ∈ vnodesOf rep n) : vn.node = n := by
  simp only [vnodesOf, List.mem_map] at h
  obtain ⟨i, _, rfl⟩ := h
  rfl

theorem vnodesOf_ne_nil {rep : Nat} (hrep : 0 < rep) (n : String) :
    vnodesOf rep n ≠ [] := by
  simp only [vnodesOf, ne_eq, List.map_eq_nil_iff, List.range_eq_nil]
  omega

theorem addNode_ring_perm {r : HashRing} {n : String} (h : n ∉ r.nodes) :
    (r.addNode n).ring.Perm (vnodesOf r.replicas n ++ r.ring) := by
  simp only [HashRing.addNode, if_neg h]
  exact foldl_ringInsert_perm _ _

theorem addNode_nodes_of_not_mem {r : HashRing} {n : String} (h : n ∉ r.nodes) :
    (r.addNode n).nodes = r.nodes ++ [n] := by
  simp only [HashRing.addNode, if_neg h]

theorem addNode_of_mem {r : HashRing} {n : String} (h : n ∈ r.nodes) :
    r.addNode n = r := by
  simp only [HashRing.addNode, if_pos h]

theorem addNode_replicas (r : HashRing) (n : String) :
    (r.addNode n).replicas = r.replicas := by
  simp only [HashRing.addNode]
  split <;> rfl

theorem addNode_sorted {r : HashRing} (hs : r.ring.Sorted hashLe) (n : String) :
    (r.addNode n).ring.Sorted hashLe := by
  simp only [HashRing.addNode]
  split
  · exact hs
  · exact foldl_ringInsert_sorted _ hs

theorem addNode_ring_length_le (r : HashRing) (n : String) :
    r.ring.length ≤ (r.addNode n).ring.length := by
  by_cases h : n ∈ r.nodes
  · rw [addNode_of_mem h]
  · have := (addNode_ring_perm h).length_eq
    rw [this, List.length_append]
    omega

theorem foldl_addNode_replicas (ns : List String) (r : HashRing) :
    (ns.foldl (fun a m => a.addNode m) r).replicas = r.replicas := by
  induction ns generalizing r with
  | nil => rfl
  | cons n ns ih => simp only [List.foldl_cons, ih, addNode_replicas]

theorem foldl_addNode_nodes {ns : List String} {r : HashRing}
    (h : ∀ m ∈ ns, m ∉ r.nodes) (hnd : ns.Nodup) :
    (ns.foldl (fun a m => a.addNode m) r).nodes = r.nodes ++ ns := by
  induction ns generalizing r with
  | nil => simp
  | cons n ns ih =>
    simp only [List.foldl_cons]
    have hn : n ∉ r.nodes := h n (List.mem_cons_self n ns)
    have hrest : ∀ m ∈ ns, m ∉ (r.addNode n).nodes := by
      intro m hm
      rw [addNode_nodes_of_not_mem hn, List.mem_append, List.mem_singleton]
      rintro (hc | hc)
      · exact h m (List.mem_cons_of_mem _ hm) hc
      · exact (List.nodup_cons.mp hnd).1 (hc ▸ hm)
    rw [ih hrest (List.nodup_cons.mp hnd).2, addNode_nodes_of_not_mem hn,
      List.append_assoc, List.singleton_append]

theorem foldl_addNode_ring_perm {ns : List String} {r : HashRing}
    (h : ∀ m ∈ ns, m ∉ r.nodes) (hnd : ns.Nodup) :
    (ns.foldl (fun a m => a.addNode m) r).ring.Perm
      (ns.flatMap (vnodesOf r.replicas) ++ r.ring) := by
  induction ns generalizing r with
  | nil => simp
  | cons n ns ih =>
    simp only [List.foldl_cons, List.flatMap_cons]
    have hn : n ∉ r.nodes := h n (List.mem_cons_self n ns)
    have hrest : ∀ m ∈ ns, m ∉ (r.addNode n).nodes := by
      intro m hm
      rw [addNode_nodes_of_not_mem hn, List.mem_append, List.mem_singleton]
      rintro (hc | hc)
      · exact h m (List.mem_cons_of_mem _ hm) hc
      · exact (List.nodup_cons.mp hnd).1 (hc ▸ hm)
    have h1 := ih hrest (List.nodup_cons.mp hnd).2
    rw [addNode_replicas] at h1
    have h2 : ((ns.flatMap (vnodesOf r.replicas)) ++ (r.addNode n).ring).Perm
        ((ns.flatMap (vnodesOf r.replicas)) ++ (vnodesOf r.replicas n ++ r.ring)) :=
      List.Perm.append_left _ (addNode_ring_perm hn)
    have h3 : ((ns.flatMap (vnodesOf r.replicas)) ++ (vnodesOf r.replicas n ++ r.ring)).Perm
        ((vnodesOf r.replicas n ++ ns.flatMap (vnodesOf r.replicas)) ++ r.ring) := by
      rw [← List.append_assoc]
      exact List.Perm.append_right r.ring (List.perm_append_comm)
    exact (h1.trans h2).trans h3

theorem foldl_addNode_sorted {ns : List String} {r : HashRing}
    (hs : r.ring.Sorted hashLe) :
    (ns.foldl (fun a m => a.addNode m) r).ring.Sorted hashLe := by
  induction ns generalizing r with
  | nil => exact hs
  | cons n ns ih => exact ih (addNode_sorted hs n)

theorem buildRingOf_replicas (ns : List String) (rep : Nat) :
    (buildRingOf ns rep).replicas = rep :=
  foldl_addNode_replicas ns (HashRing.mk0 rep)

theorem buildRingOf_nodes {ns : List String} (rep : Nat) (hnd : ns.Nodup) :
    (buildRingOf ns rep).nodes = ns := by
  have := @foldl_addNode_nodes ns (HashRing.mk0 rep)
    (by intro m _ hc; exact (List.not_mem_nil m) hc) hnd
  simpa [buildRingOf, HashRing.mk0] using this

theorem buildRingOf_ring_perm {ns : List String} (rep : Nat) (hnd : ns.Nodup) :
    (buildRingOf ns rep).ring.Perm (ns.flatMap (vnodesOf rep)) := by
  have := @foldl_addNode_ring_perm ns (HashRing.mk0 rep)
    (by intro m _ hc; exact (List.not_mem_nil m) hc) hnd
  simpa [buildRingOf, HashRing.mk0] using this

theorem buildRingOf_sorted (ns : List String) (rep : Nat) :
    (buildRingOf ns rep).ring.Sorted hashLe :=
  foldl_addNode_sorted (List.sorted_nil)

theorem ringWF_mk0 (rep : Nat) : ringWF (HashRing.mk0 rep) := by
  refine ⟨List.nodup_nil, ?_, ?_⟩ <;> intro x hx <;> cases hx

theorem ringWF_addNode {r : HashRing} (hrep : 0 < r.replicas) (h : ringWF r)
    (n : String) : ringWF (r.addNode n) := by
  by_cases hm : n ∈ r.nodes
  · rw [addNode_of_mem hm]; exact h
  · obtain ⟨h1, h2, h3⟩ := h
    refine ⟨?_, ?_, ?_⟩
    · rw [addNode_nodes_of_not_mem hm]
      refine h1.append (List.nodup_singleton n) ?_
      intro a ha hb
      rw [List.mem_singleton] at hb
      exact hm (hb ▸ ha)
    · intro vn hvn
      rw [addNode_nodes_of_not_mem hm, List.mem_append, List.mem_singleton]
      rcases List.mem_append.mp ((addNode_ring_perm hm).mem_iff.mp hvn) with hv | hv
      · exact Or.inr (mem_vnodesOf hv)
      · exact Or.inl (h2 vn hv)
    · intro m hmem
      rw [addNode_nodes_of_not_mem hm, List.mem_append, List.mem_singleton] at hmem
      rcases hmem with hv | rfl
      · obtain ⟨vn, hvn, hnode⟩ := h3 m hv
        exact ⟨vn, (addNode_ring_perm hm).mem_iff.mpr (List.mem_append.mpr (Or.inr hvn)), hnode⟩
      · obtain ⟨vn, hvn⟩ := List.exists_mem_of_ne_nil _ (vnodesOf_ne_nil hrep m)
        exact ⟨vn, (addNode_ring_perm hm).mem_iff.mpr (List.mem_append.mpr (Or.inl hvn)),
          mem_vnodesOf hvn⟩

theorem ringWF_removeNode {r : HashRing} (h : ringWF r) (n : String) :
    ringWF (r.removeNode n) := by
  by_cases hm : n ∈ r.nodes
  · simp only [HashRing.removeNode, if_pos hm]
    obtain ⟨h1, h2, h3⟩ := h
    refine ⟨h1.erase n, ?_, ?_⟩
    · intro vn hvn
      rw [List.mem_filter] at hvn
      obtain ⟨hv, hnn⟩ := hvn
      rw [h1.mem_erase_iff]
      exact ⟨by simpa using hnn, h2 vn hv⟩
    · intro m hmem
      rw [h1.mem_erase_iff] at hmem
      obtain ⟨hne, hv⟩ := hmem
      obtain ⟨vn, hvn, hnode⟩ := h3 m hv
      exact ⟨vn, List.mem_filter.mpr ⟨hvn, by simpa [hnode] using hne⟩, hnode⟩
  · simp only [HashRing.removeNode, if_neg hm]; exact h

theorem removeNode_replicas (r : HashRing) (n : String) :
    (r.removeNode n).replicas = r.replicas := by
  simp only [HashRing.removeNode]
  split <;> rfl

theorem applyOp_replicas (r : HashRing) (op : RingOp) :
    (applyOp r op).replicas = r.replicas := by
  cases op with
  | add id => exact addNode_replicas r id
  | remove id => exact removeNode_replicas r id

theorem ringWF_applyOp {r : HashRing} (hrep : 0 < r.replicas) (h : ringWF r)
    (op : RingOp) : ringWF (applyOp r op) := by
  cases op with
  | add id => exact ringWF_addNode hrep h id
  | remove id => exact ringWF_removeNode h id

theorem applyOps_replicas (r : HashRing) (ops : List RingOp) :
    (applyOps r ops).replicas = r.replicas := by
  induction ops generalizing r with
  | nil => rfl
  | cons op ops ih =>
    simp only [applyOps, List.foldl_cons] at ih ⊢
    rw [ih, applyOp_replicas]

theorem ringWF_applyOps {r : HashRing} (hrep : 0 < r.replicas) (h : ringWF r)
    (ops : List RingOp) : ringWF (applyOps r ops) := by
  induction ops generalizing r with
  | nil => exact h
  | cons op ops ih =>
    simp only [applyOps, List.foldl_cons] at ih ⊢
    exact ih (by rw [applyOp_replicas]; exact hrep) (ringWF_applyOp hrep h op)

theorem ringLookup_mem {h0 : Nat} {l : List VNode} {m : String}
    (h : ringLookup h0 l = some m) : ∃ vn ∈ l, vn.node = m := by
  cases l with
  | nil => cases h
  | cons v0 tl =>
    simp only [ringLookup, Option.some_inj] at h
    cases hf : (v0 :: tl).find? (fun vn => decide (h0 < vn.hash)) with
    | none =>
      rw [hf] at h
      simp only [Option.map_none', Option.getD_none] at h
      exact ⟨v0, List.mem_cons_self v0 tl, h⟩
    | some vn =>
      rw [hf] at h
      simp only [Option.map_some', Option.getD_some] at h
      exact ⟨vn, List.mem_of_find?_eq_some hf, h⟩

theorem getNode_mem_ring {r : HashRing} {k : String} {m : String}
    (h : r.getNode k = some m) : ∃ vn ∈ r.ring, vn.node = m :=
  ringLookup_mem h

theorem getNode_isSome_of_ne_nil {r : HashRing} (h : r.ring ≠ []) (k : String) :
    ∃ m, r.getNode k = some m := by
  unfold HashRing.getNode ringLookup
  cases hr : r.ring with
  | nil => exact absurd hr h
  | cons v0 tl => exact ⟨_, rfl⟩

theorem ringCoverage {r : HashRing} (h : ringWF r) (hne : r.nodes ≠ [])
    (k : String) : ∃ n, n ∈ r.nodes ∧ r.getNode k = some n := by
  obtain ⟨n0, hn0⟩ := List.exists_mem_of_ne_nil _ hne
  obtain ⟨vn0, hvn0, _⟩ := h.2.2 n0 hn0
  have hring : r.ring ≠ [] := List.ne_nil_of_mem hvn0
  obtain ⟨m, hm⟩ := getNode_isSome_of_ne_nil hring k
  obtain ⟨vn, hvn, hnode⟩ := getNode_mem_ring hm
  exact ⟨m, hnode ▸ h.2.1 vn hvn, hm⟩

theorem ringAvoids_removeNode {r : HashRing} (h : ringWF r) (n : String) :
    ringAvoids n (r.removeNode n) := by
  by_cases hm : n ∈ r.nodes
  · simp only [HashRing.removeNode, if_pos hm]
    constructor
    · intro hc
      rw [h.1.mem_erase_iff] at hc
      exact hc.1 rfl
    · intro vn hvn
      rw [List.mem_filter] at hvn
      simpa using hvn.2
  · simp only [HashRing.removeNode, if_neg hm]
    exact ⟨hm, fun vn hvn hc => hm (hc ▸ h.2.1 vn hvn)⟩

theorem ringAvoids_addNode {r : HashRing} {n m : String} (hne : m ≠ n)
    (h : ringAvoids n r) : ringAvoids n (r.addNode m) := by
  by_cases hm : m ∈ r.nodes
  · rw [addNode_of_mem hm]; exact h
  · constructor
    · rw [addNode_nodes_of_not_mem hm, List.mem_append, List.mem_singleton]
      rintro (hc | hc)
      · exact h.1 hc
      · exact hne hc.symm
    · intro vn hvn
      rcases List.mem_append.mp ((addNode_ring_perm hm).mem_iff.mp hvn) with hv | hv
      · rw [mem_vnodesOf hv]; exact hne
      · exact h.2 vn hv

theorem ringAvoids_removeNode_other {r : HashRing} {n : String} (m : String)
    (h : ringAvoids n r) : ringAvoids n (r.removeNode m) := by
  by_cases hm : m ∈ r.nodes
  · simp only [HashRing.removeNode, if_pos hm]
    constructor
    · intro hc
      exact h.1 (List.mem_of_mem_erase hc)
    · intro vn hvn
      rw [List.mem_filter] at hvn
      exact h.2 vn hvn.1
  · simp only [HashRing.removeNode, if_neg hm]; exact h

theorem ringAvoids_applyOps {r : HashRing} {n : String} {ops : List RingOp}
    (hops : RingOp.add n ∉ ops) (h : ringAvoids n r) :
    ringAvoids n (applyOps r ops) := by
  induction ops generalizing r with
  | nil => exact h
  | cons op ops ih =>
    simp only [applyOps, List.foldl_cons] at ih ⊢
    have hops2 : RingOp.add n ∉ ops := fun hc => hops (List.mem_cons_of_mem _ hc)
    cases op with
    | add m =>
      have hne : m ≠ n := by
        rintro rfl
        exact hops (List.mem_cons_self _ _)
      exact ih hops2 (ringAvoids_addNode hne h)
    | remove m => exact ih hops2 (ringAvoids_removeNode_other m h)

theorem ringAvoids_getNode {r : HashRing} {n : String} (h : ringAvoids n r)
    (k : String) : r.getNode k ≠ some n := by
  intro hc
  obtain ⟨vn, hvn, hnode⟩ := getNode_mem_ring hc
  exact h.2 vn hvn hnode

theorem mem_nodes_foldl_addNode {ns : List String} {r : HashRing} {x : String}
    (h : x ∈ r.nodes) : x ∈ (ns.foldl (fun a m => a.addNode m) r).nodes := by
  induction ns generalizing r with
  | nil => exact h
  | cons n ns ih =>
    simp only [List.foldl_cons]
    refine ih ?_
    by_cases hm : n ∈ r.nodes
    · rw [addNode_of_mem hm]; exact h
    · rw [addNode_nodes_of_not_mem hm]
      exact List.mem_append.mpr (Or.inl h)

theorem foldl_addNode_ring_length_le (ns : List String) (r : HashRing) :
    r.ring.length ≤ (ns.foldl (fun a m => a.addNode m) r).ring.length := by
  induction ns generalizing r with
  | nil => exact Nat.le_refl _
  | cons n ns ih =>
    simp only [List.foldl_cons]
    exact Nat.le_trans (addNode_ring_length_le r n) (ih _)

theorem sorted_hashLt_of_nodup {l : List VNode} (hs : l.Sorted hashLe)
    (hnd : (l.map VNode.hash).Nodup) : l.Sorted hashLt := by
  have h2 : l.Pairwise (fun a b => a.hash ≠ b.hash) := by
    rw [List.Nodup, List.pairwise_map] at hnd
    exact hnd
  exact (hs.and h2).imp (fun hab => Nat.lt_of_le_of_ne hab.1 hab.2)

theorem ringWF_foldl_addNode {ns : List String} {r : HashRing}
    (hrep : 0 < r.replicas) (h : ringWF r) :
    ringWF (ns.foldl (fun a m => a.addNode m) r) := by
  induction ns generalizing r with
  | nil => exact h
  | cons n ns ih =>
    simp only [List.foldl_cons]
    exact ih (by rw [addNode_replicas]; exact hrep) (ringWF_addNode hrep h n)

theorem buildRingOf_eq_of_perm {ns1 ns2 : List String} {rep : Nat}
    (hp : ns1.Perm ns2) (hnd : ns1.Nodup)
    (hhash : ((ns1.flatMap (vnodesOf rep)).map VNode.hash).Nodup) :
    (buildRingOf ns1 rep).ring = (buildRingOf ns2 rep).ring := by
  have hnd2 : ns2.Nodup := hp.nodup_iff.mp hnd
  have p1 := @buildRingOf_ring_perm ns1 rep hnd
  have p2 := @buildRingOf_ring_perm ns2 rep hnd2
  have pf : (ns1.flatMap (vnodesOf rep)).Perm (ns2.flatMap (vnodesOf rep)) :=
    hp.flatMap_right _
  have pr : (buildRingOf ns1 rep).ring.Perm (buildRingOf ns2 rep).ring :=
    (p1.trans pf).trans p2.symm
  have hh1 : ((buildRingOf ns1 rep).ring.map VNode.hash).Nodup :=
    ((p1.map VNode.hash).nodup_iff).mpr hhash
  have hh2 : ((buildRingOf ns2 rep).ring.map VNode.hash).Nodup :=
    ((pr.map VNode.hash).nodup_iff).mp hh1
  exact List.eq_of_perm_of_sorted pr
    (sorted_hashLt_of_nodup (buildRingOf_sorted ns1 rep) hh1)
    (sorted_hashLt_of_nodup (buildRingOf_sorted ns2 rep) hh2)

theorem buildRing_eq (n rep : Nat) :
    buildRing n rep = buildRingOf ((List.range n).map toString) rep := by
  simp [buildRing, buildRingOf, List.foldl_map]

theorem ringWF_buildRing (n : Nat) {rep : Nat} (hrep : 0 < rep) :
    ringWF (buildRing n rep) := by
  rw [buildRing_eq]
  exact ringWF_foldl_addNode (by simpa [HashRing.mk0] using hrep) (ringWF_mk0 rep)

theorem buildRing_nodes_ne_nil {n rep : Nat} (hn : 0 < n) :
    (buildRing n rep).nodes ≠ [] := by
  obtain ⟨m, rfl⟩ := Nat.exists_eq_succ_of_ne_zero (Nat.pos_iff_ne_zero.mp hn)
  have hmem : (toString 0) ∈ (buildRing (m + 1) rep).nodes := by
    rw [buildRing_eq, List.range_succ_eq_map, List.map_cons]
    unfold buildRingOf
    rw [List.foldl_cons]
    refine mem_nodes_foldl_addNode ?_
    rw [addNode_nodes_of_not_mem (by simp [HashRing.mk0])]
    simp [HashRing.mk0]
  exact List.ne_nil_of_mem hmem

theorem buildRing_ring_ne_nil {n rep : Nat} (hn : 0 < n) (hrep : 0 < rep) :
    (buildRing n rep).ring ≠ [] := by
  obtain ⟨n0, hn0⟩ := List.exists_mem_of_ne_nil _ (@buildRing_nodes_ne_nil n rep hn)
  obtain ⟨vn, hvn, _⟩ := (ringWF_buildRing n hrep).2.2 n0 hn0
  exact List.ne_nil_of_mem hvn

theorem exceptBindOk {A B : Type} (a : A) (f : A → Except String B) :
    (Except.ok a >>= f) = f a := rfl

theorem exceptPureEq {A : Type} (a : A) : (pure a : Except String A) = Except.ok a := rfl

theorem diffAux {r newRing : HashRing} (hr : r.ring ≠ []) (hn : newRing.ring ≠ [])
    (ids : List String) :
    ∀ acc : List Move,
      ids.foldlM
        (fun moved id => do
          let f ← r.getNodeE id
          let t ← newRing.getNodeE id
          if f ≠ t then pure (moved ++ [(⟨id, f, t⟩ : Move)]) else pure moved)
        acc
      = .ok (acc ++ movedSpec r newRing ids) := by
  induction ids with
  | nil => intro acc; simp [movedSpec]; rfl
  | cons id ids ih =>
    intro acc
    obtain ⟨f, hf⟩ := getNode_isSome_of_ne_nil hr id
    obtain ⟨t, ht⟩ := getNode_isSome_of_ne_nil hn id
    have hfE : r.getNodeE id = .ok f := by simp [HashRing.getNodeE, hf]
    have htE : newRing.getNodeE id = .ok t := by simp [HashRing.getNodeE, ht]
    have hspec : movedSpec r newRing (id :: ids) =
        (if f ≠ t then [(⟨id, f, t⟩ : Move)] else []) ++ movedSpec r newRing ids := by
      simp only [movedSpec, List.filterMap_cons, hf, ht]
      by_cases hft : f ≠ t
      · rw [if_pos hft, if_pos hft]; rfl
      · rw [if_neg hft, if_neg hft]; rfl
    rw [List.foldlM_cons, hspec, hfE, exceptBindOk, htE, exceptBindOk]
    by_cases hft : f ≠ t
    · rw [if_pos hft, exceptPureEq, exceptBindOk, ih (acc ++ [(⟨id, f, t⟩ : Move)])]
      simp [hft]
    · rw [if_neg hft, exceptPureEq, exceptBindOk, ih acc]
      simp [not_ne_iff.mp hft]

theorem diffMovedIds_ok {r : HashRing} {n : Nat} (ids : List String)
    (hr : r.ring ≠ []) (hn : 0 < n) :
    r.diffMovedIds n ids = .ok (movedSpec r (buildRing n 100) ids) := by
  have hnew : (buildRing n 100).ring ≠ [] :=
    buildRing_ring_ne_nil hn (by omega)
  unfold HashRing.diffMovedIds
  simpa using diffAux hr hnew ids []

/-! ### LRU lemmas -/

theorem lruFoldSet_go {K V : Type} [DecidableEq K] (ps : List (K × V))
    (c : LRUc K V) (evs : List (K × V)) :
    ps.foldl (fun acc p => ((acc.1.set p.1 p.2).1, acc.2 ++ ((acc.1.set p.1 p.2).2).toList))
        (c, evs)
      = ((lruFoldSet c ps).1, evs ++ (lruFoldSet c ps).2) := by
  induction ps generalizing c evs with
  | nil => simp [lruFoldSet]
  | cons p ps ih =>
    simp only [lruFoldSet, List.foldl_cons, List.nil_append]
    rw [ih ((c.set p.1 p.2).1) (evs ++ ((c.set p.1 p.2).2).toList),
      ih ((c.set p.1 p.2).1) (((c.set p.1 p.2).2).toList)]
    simp [List.append_assoc]

theorem lruFoldSet_append {K V : Type} [DecidableEq K] (c : LRUc K V)
    (xs ys : List (K × V)) :
    lruFoldSet c (xs ++ ys)
      = ((lruFoldSet (lruFoldSet c xs).1 ys).1,
         (lruFoldSet c xs).2 ++ (lruFoldSet (lruFoldSet c xs).1 ys).2) := by
  have h0 : lruFoldSet c (xs ++ ys)
      = (xs ++ ys).foldl
          (fun acc p => ((acc.1.set p.1 p.2).1, acc.2 ++ ((acc.1.set p.1 p.2).2).toList))
          (c, []) := rfl
  rw [h0, List.foldl_append, lruFoldSet_go xs c [], List.nil_append]
  exact lruFoldSet_go ys (lruFoldSet c xs).1 (lruFoldSet c xs).2

theorem lru_set_fresh {K V : Type} [DecidableEq K] {c : LRUc K V} {k : K} {v : V}
    (hk : ∀ p ∈ c.entries, p.1 ≠ k) (hlen : c.entries.length < c.max) :
    c.set k v = (⟨c.max, c.entries ++ [(k, v)]⟩, none) := by
  unfold LRUc.set
  have he : c.entries.eraseP (fun q => decide (q.1 = k)) = c.entries :=
    List.eraseP_of_forall_not (by intro p hp; simpa using hk p hp)
  simp only [he]
  rw [if_neg (by simp; omega)]

theorem lruFoldSet_fill {K V : Type} [DecidableEq K] (ps : List (K × V))
    (c : LRUc K V)
    (hnd : ((c.entries ++ ps).map Prod.fst).Nodup)
    (hlen : c.entries.length + ps.length ≤ c.max) :
    lruFoldSet c ps = (⟨c.max, c.entries ++ ps⟩, []) := by
  induction ps generalizing c with
  | nil => simp [lruFoldSet]
  | cons p ps ih =>
    have hk : ∀ q ∈ c.entries, q.1 ≠ p.1 := by
      intro q hq hc
      rw [List.map_append, List.map_cons] at hnd
      have hdisj := (List.nodup_append.mp hnd).2.2
      exact (List.nodup_cons.mp ((List.nodup_append.mp hnd).2.1)).1
        (by exact False.elim (hdisj (List.mem_map_of_mem Prod.fst hq)
          (by rw [hc]; exact List.mem_cons_self _ _)))
    have hfresh := @lru_set_fresh K V _ c p.1 p.2 hk
      (by simp at hlen ⊢; omega)
    simp only [lruFoldSet, List.foldl_cons]
    rw [show (c.set p.1 p.2) = (⟨c.max, c.entries ++ [(p.1, p.2)]⟩, none) from hfresh]
    have hres := ih (⟨c.max, c.entries ++ [(p.1, p.2)]⟩ : LRUc K V)
      (by simpa [List.append_assoc] using hnd)
      (by simp at hlen ⊢; omega)
    simp only [Option.toList_none, List.append_nil, List.nil_append]
    rw [lruFoldSet_go ps (⟨c.max, c.entries ++ [(p.1, p.2)]⟩ : LRUc K V) [], hres]
    simp [List.append_assoc]

theorem lru_set_evict {K V : Type} [DecidableEq K] {cap : Nat} {p : K × V}
    {rest : List (K × V)} {k : K} {v : V}
    (hk : ∀ pp ∈ p :: rest, pp.1 ≠ k) (hlen : (p :: rest).length = cap) :
    (⟨cap, p :: rest⟩ : LRUc K V).set k v = (⟨cap, rest ++ [(k, v)]⟩, some p) := by
  unfold LRUc.set
  have he : (p :: rest).eraseP (fun q => decide (q.1 = k)) = p :: rest :=
    List.eraseP_of_forall_not (by intro q hq; simpa using hk q hq)
  simp only [he]
  rw [if_pos (by simp at hlen ⊢; omega)]
  simp

theorem lru_eviction {K V : Type} [DecidableEq K] {cap : Nat} (hcap : 1 ≤ cap)
    (p q : K × V) (ps : List (K × V))
    (hlen : (p :: ps).length = cap)
    (hnd : (((p :: ps) ++ [q]).map Prod.fst).Nodup) :
    lruFoldSet (⟨cap, []⟩ : LRUc K V) ((p :: ps) ++ [q]) = (⟨cap, ps ++ [q]⟩, [p]) := by
  have hnd2 : ((p :: ps).map Prod.fst).Nodup := by
    rw [List.map_append] at hnd
    exact (List.nodup_append.mp hnd).1
  have hfill : lruFoldSet (⟨cap, []⟩ : LRUc K V) (p :: ps) = (⟨cap, p :: ps⟩, []) := by
    have := lruFoldSet_fill (p :: ps) (⟨cap, []⟩ : LRUc K V)
      (by simpa using hnd2)
      (by simp at hlen ⊢; omega)
    simpa using this
  have hkq : ∀ pp ∈ p :: ps, pp.1 ≠ q.1 := by
    intro pp hpp hc
    rw [List.map_append] at hnd
    have hdisj := (List.nodup_append.mp hnd).2.2
    exact hdisj (List.mem_map_of_mem Prod.fst hpp) (by simp [hc])
  have hstep : (⟨cap, p :: ps⟩ : LRUc K V).set q.1 q.2 = (⟨cap, ps ++ [(q.1, q.2)]⟩, some p) :=
    lru_set_evict hkq hlen
  rw [lruFoldSet_append, hfill]
  simp only [lruFoldSet, List.foldl_cons, List.foldl_nil, hstep]
  simp

theorem lru_get_protects {K V : Type} [DecidableEq K] {cap : Nat}
    {E : List (K × V)} {k : K} {v : V} {kq : K} {vq : V}
    (hnd : (E.map Prod.fst).Nodup) (hlen : E.length ≤ cap) (hcap : 2 ≤ cap)
    (hk : (k, v) ∈ E) (hkq : kq ∉ E.map Prod.fst) :
    ∀ w, (((⟨cap, E⟩ : LRUc K V).get k).2.set kq vq).2 ≠ some (k, w) := by
  intro w
  have hfind : ∃ pp, E.find? (fun pp => decide (pp.1 = k)) = some pp := by
    cases hf : E.find? (fun pp => decide (pp.1 = k)) with
    | some pp => exact ⟨pp, rfl⟩
    | none =>
      have := List.find?_eq_none.mp hf (k, v) hk
      simp at this
  obtain ⟨pp, hf⟩ := hfind
  have hppk : pp.1 = k := by simpa using List.find?_some hf
  have hget : ((⟨cap, E⟩ : LRUc K V).get k).2
      = ⟨cap, E.eraseP (fun q2 => decide (q2.1 = k)) ++ [(k, pp.2)]⟩ := by
    simp only [LRUc.get, hf]
  rw [hget]
  have hkE : k ∈ E.map Prod.fst := List.mem_map_of_mem Prod.fst hk
  have hkqk : kq ≠ k := fun hc => hkq (hc ▸ hkE)
  have hkeys : (E.eraseP (fun q2 => decide (q2.1 = k))).map Prod.fst
      = (E.map Prod.fst).eraseP (fun x => decide (x = k)) := by
    rw [List.eraseP_map]
    rfl
  have hkq2 : ∀ pp2 ∈ E.eraseP (fun q2 => decide (q2.1 = k)) ++ [(k, pp.2)], pp2.1 ≠ kq := by
    intro pp2 hpp2 hc
    rcases List.mem_append.mp hpp2 with hin | hin
    · refine hkq ?_
      have : pp2.1 ∈ (E.eraseP (fun q2 => decide (q2.1 = k))).map Prod.fst :=
        List.mem_map_of_mem Prod.fst hin
      rw [hkeys] at this
      exact hc ▸ List.mem_of_mem_eraseP this
    · simp at hin
      exact hkqk (hc ▸ (congrArg Prod.fst hin).symm ▸ rfl)
  have hknotin : k ∉ (E.eraseP (fun q2 => decide (q2.1 = k))).map Prod.fst := by
    rw [hkeys]
    intro hc
    have hpk : (fun x => decide (x = k)) k = true := by simp
    obtain ⟨a2, l1, l2, hl1, hpa, heq, herase⟩ :=
      @List.exists_of_eraseP K (fun x => decide (x = k)) (E.map Prod.fst) k hkE hpk
    have ha2 : a2 = k := by simpa using hpa
    rw [herase] at hc
    rcases List.mem_append.mp hc with hin | hin
    · exact (by simpa using hl1 k hin : k ≠ k) rfl
    · have hndE := hnd
      rw [heq, ha2] at hndE
      have : (k :: l2).Nodup := (List.sublist_append_right l1 (k :: l2)).nodup hndE
      exact (List.nodup_cons.mp this).1 hin
  unfold LRUc.set
  have he : (E.eraseP (fun q2 => decide (q2.1 = k)) ++ [(k, pp.2)]).eraseP
      (fun q2 => decide (q2.1 = kq))
      = E.eraseP (fun q2 => decide (q2.1 = k)) ++ [(k, pp.2)] :=
    List.eraseP_of_forall_not (by intro q2 hq2; simpa using hkq2 q2 hq2)
  simp only [he]
  split
  · rename_i hover
    cases hE : E.eraseP (fun q2 => decide (q2.1 = k)) with
    | nil =>
      rw [hE] at hover
      simp at hover
      omega
    | cons h t =>
      show some h ≠ some (k, w)
      intro hc
      have hh1 : h.1 ≠ k := by
        intro hck
        refine hknotin ?_
        rw [hE]
        rw [List.map_cons, hck]
        exact List.mem_cons_self k (t.map Prod.fst)
      have : h = (k, w) := by simpa using hc
      exact hh1 (by rw [this])
  · simp

/-! ### Search-merge lemmas -/

theorem oramaSearchHits_eq_of_limit {α : Type} (score : α → ℚ) (q : ShardQuery α)
    (shard : List α)
    (hlimit : (shardMatches score q shard).length ≤ q.limit.getD oramaDefaultLimit) :
    oramaSearchHits score q shard
      = ((shardMatches score q shard).map (fun d => (d, score d))).insertionSort scoreGe := by
  unfold oramaSearchHits
  apply List.take_of_length_le
  rw [List.length_insertionSort, List.length_map]
  exact hlimit

theorem repoSearch_flat_perm {α : Type} (score : α → ℚ) (shards : List (List α))
    (o : SearchOptions α)
    (hlimit : ∀ s ∈ shards, (shardMatches score (repoShardQuery o) s).length
      ≤ (repoShardQuery o).limit.getD oramaDefaultLimit) :
    (shards.flatMap (oramaSearchHits score (repoShardQuery o))).Perm
      ((shards.flatMap (shardMatches score (repoShardQuery o))).map (fun d => (d, score d))) := by
  have h1 : (shards.flatMap (oramaSearchHits score (repoShardQuery o))).Perm
      (shards.flatMap (fun s =>
        (shardMatches score (repoShardQuery o) s).map (fun d => (d, score d)))) := by
    refine List.Perm.flatMap_left shards ?_
    intro s hs
    rw [oramaSearchHits_eq_of_limit score _ s (hlimit s hs)]
    exact List.perm_insertionSort _ _
  rw [List.map_flatMap]
  exact h1

/-! ### autoRebalance and saveMany lemmas -/

theorem autoRebalanceTarget_eq_claimed (n : Nat) (sizes : Nat → Option Nat) :
    autoRebalanceTarget n sizes
      = (claimedAutoRebalanceTarget n sizes).bind
          (fun m => if m = n then none else some m) := by
  unfold autoRebalanceTarget claimedAutoRebalanceTarget
  by_cases h0 : ((List.range n).filterMap sizes).length = 0
  · rw [if_pos h0, if_pos h0]; rfl
  · rw [if_neg h0, if_neg h0]
    dsimp only
    by_cases h1 : 500 * (1024 * 1024) * ((List.range n).filterMap sizes).length <
        ((List.range n).filterMap sizes).sum
    · rw [if_pos h1, if_pos h1]
      by_cases h2 : min 32 (n * 2) = n
      · rw [if_neg (by simpa using h2), Option.some_bind, if_pos h2]
      · rw [if_pos (by simpa using h2), Option.some_bind, if_neg h2]
    · rw [if_neg h1, if_neg h1]
      by_cases h2 : ((List.range n).filterMap sizes).sum <
            100 * (1024 * 1024) * ((List.range n).filterMap sizes).length
          ∧ 2 < n
      · rw [if_pos h2, if_pos h2]
        by_cases h3 : max 2 (n / 2) = n
        · rw [if_neg (by simpa using h3), Option.some_bind, if_pos h3]
        · rw [if_pos (by simpa using h3), Option.some_bind, if_neg h3]
      · rw [if_neg h2, if_neg h2]
        simp

theorem processGroups_allEmpty {s : SM} {gs : List (String × List SDoc)}
    (h : ∀ g ∈ gs, g.2 = []) :
    gs.foldlM (fun st g => st.processGroup g) s = .ok s := by
  induction gs generalizing s with
  | nil => rfl
  | cons g gs ih =>
    rw [List.foldlM_cons]
    have hPg : s.processGroup g = .ok s := by
      unfold SM.processGroup
      rw [if_pos (by rw [h g (List.mem_cons_self g gs)]; rfl)]
    rw [hPg, exceptBindOk]
    exact ih (fun g2 hg2 => h g2 (List.mem_cons_of_mem g hg2))

theorem initGroups_all_empty (s : SM) :
    ∀ g ∈ (List.range s.numOfShards).map (fun i => (toString i, ([] : List SDoc))),
      g.2 = [] := by
  intro g hg
  rw [List.mem_map] at hg
  obtain ⟨i, _, rfl⟩ := hg
  rfl

theorem buildStep_none {s : SM} {d : SDoc} (hid : d.id = none)
    (gs : List (String × List SDoc)) : buildStep s gs d = .ok gs := by
  simp [buildStep, hid]

theorem buildStep_some_ok {s : SM} {d : SDoc} {i k : String} (hid : d.id = some i)
    (hk : s.ring.getNodeE i = .ok k) (gs : List (String × List SDoc)) :
    buildStep s gs d = .ok (pushGroup gs k d) := by
  simp only [buildStep, hid, hk]
  rfl

theorem buildStep_some_err {s : SM} {d : SDoc} {i e : String} (hid : d.id = some i)
    (hk : s.ring.getNodeE i = .error e) (gs : List (String × List SDoc)) :
    buildStep s gs d = .error e := by
  simp only [buildStep, hid, hk]
  rfl

theorem buildGroupsAux_filter (s : SM) (docs : List SDoc) :
    ∀ gs0 : List (String × List SDoc),
      docs.foldlM (buildStep s) gs0
        = (docs.filter (fun d => d.id.isSome)).foldlM (buildStep s) gs0 := by
  induction docs with
  | nil => intro gs0; rfl
  | cons d docs ih =>
    intro gs0
    cases hid : d.id with
    | none =>
      rw [List.foldlM_cons, List.filter_cons, if_neg (by simp [hid]),
        buildStep_none hid, exceptBindOk]
      exact ih gs0
    | some i =>
      rw [List.foldlM_cons, List.filter_cons, if_pos (by simp [hid]), List.foldlM_cons]
      cases hne : s.ring.getNodeE i with
      | error e => rw [buildStep_some_err hid hne]; rfl
      | ok k =>
        rw [buildStep_some_ok hid hne, exceptBindOk, exceptBindOk]
        exact ih (pushGroup gs0 k d)

theorem buildGroups_filter (s : SM) (docs : List SDoc) :
    s.buildGroups docs = s.buildGroups (docs.filter (fun d => d.id.isSome)) := by
  unfold SM.buildGroups
  exact buildGroupsAux_filter s docs _

theorem buildGroupsAux_allNone (s : SM) {docs : List SDoc}
    (h : ∀ d ∈ docs, d.id = none) :
    ∀ gs0 : List (String × List SDoc),
      docs.foldlM (buildStep s) gs0 = .ok gs0 := by
  induction docs with
  | nil => intro gs0; rfl
  | cons d docs ih =>
    intro gs0
    rw [List.foldlM_cons, buildStep_none (h d (List.mem_cons_self d docs)), exceptBindOk]
    exact ih (fun d2 hd2 => h d2 (List.mem_cons_of_mem d hd2)) gs0

/-! ### Claim theorems -/

/-- C4 (counterexample): at a search call with k = 5 and no fetchK, the
per-shard query's limit is not fetchK ?? k = 5: the code passes fetchK
through unchanged, so the limit is absent and Orama's default limit of 10
applies. -/
theorem C4_counterexample :
    (repoShardQuery c4Opts).limit ≠ claimedShardLimit c4Opts
    ∧ (repoShardQuery c4Opts).limit = none
    ∧ claimedShardLimit c4Opts = some 5
    ∧ (repoShardQuery c4Opts).limit.getD oramaDefaultLimit = 10 := by
  refine ⟨by decide, rfl, rfl, rfl⟩

/-- C4 (amended): every per-shard query of search carries limit = fetchK
exactly (absent when fetchK is absent, in which case Orama's default
limit 10 governs), offset 0, similarity = lambda ?? 0.6, and the caller's
filter. -/
theorem C4_amended_shard_query_params {α : Type} (o : SearchOptions α) :
    (repoShardQuery o).limit = o.fetchK
    ∧ (repoShardQuery o).offset = 0
    ∧ (repoShardQuery o).similarity = o.lambda.getD (mkRat 6 10)
    ∧ (repoShardQuery o).whereFilter = o.filter :=
  ⟨rfl, rfl, rfl, rfl⟩

/-- C5 (counterexample): two separately constructed rings with the
identical node set {gwzx, 16cd} and identical replica count 1 disagree on
getNode("x"): the two nodes' virtual hashes collide (fnv1a("gwzx:0") =
fnv1a("16cd:0")), so insertion order decides the lookup. -/
theorem C5_counterexample :
    c5NodesA.Perm c5NodesB
    ∧ (buildRingOf c5NodesA 1).getNode "x" = some "16cd"
    ∧ (buildRingOf c5NodesB 1).getNode "x" = some "gwzx" := by
  refine ⟨by decide, by decide, by decide⟩

/-- C5 (amended): getNode is deterministic across repeated calls (it is
effect-free, which the embedding reflects by being a function), and two
separately constructed rings with the same node set (in any registration
order) and the same replica count agree on every key provided the
virtual-node hashes are pairwise distinct — as they are for the node ids
"0" .. "31" the shard manager uses. -/
theorem C5_amended_ring_determinism (ns1 ns2 : List String) (rep : Nat) (k : String)
    (hperm : ns1.Perm ns2) (hnd : ns1.Nodup)
    (hhash : ((ns1.flatMap (vnodesOf rep)).map VNode.hash).Nodup) :
    (buildRingOf ns1 rep).getNode k = (buildRingOf ns2 rep).getNode k := by
  unfold HashRing.getNode
  rw [buildRingOf_eq_of_perm hperm hnd hhash]

/-- C5 (witness): the amended determinism at nodes {0, 1} with 2
replicas, registered in both orders, on the key "a". -/
theorem C5_witness :
    (buildRingOf ["0", "1"] 2).getNode "a" = (buildRingOf ["1", "0"] 2).getNode "a" :=
  C5_amended_ring_determinism ["0", "1"] ["1", "0"] 2 "a"
    (by decide) (by decide) (by decide)

/-- C6 (counterexample): the ring class admits a reachable ring violating
coverage as claimed: constructing a ring with opts.replicas = 0 and
registering node "0" leaves the virtual-node list empty, so getNode
throws (none) for every key instead of returning the registered id. -/
theorem C6_counterexample :
    "0" ∈ ((HashRing.mk0 0).addNode "0").nodes
    ∧ ((HashRing.mk0 0).addNode "0").nodes ≠ []
    ∧ ((HashRing.mk0 0).addNode "0").getNode "k" = none := by
  refine ⟨by decide, by decide, rfl⟩

/-- C6 (amended): for every ring built by addNode / removeNode calls from
a constructor with a positive replica count (the default is 100, and
every construction in the repo is positive): with at least one node
registered, getNode returns a currently registered node id for every key;
and after removeNode(n), as long as no later call re-adds n, no key ever
maps to n. -/
theorem C6_amended_ring_coverage :
    (∀ (rep : Nat) (ops : List RingOp) (k : String), 0 < rep →
      (applyOps (HashRing.mk0 rep) ops).nodes ≠ [] →
      ∃ n, n ∈ (applyOps (HashRing.mk0 rep) ops).nodes
        ∧ (applyOps (HashRing.mk0 rep) ops).getNode k = some n)
    ∧ (∀ (rep : Nat) (ops0 ops : List RingOp) (n k : String), 0 < rep →
      RingOp.add n ∉ ops →
      (applyOps ((applyOps (HashRing.mk0 rep) ops0).removeNode n) ops).getNode k
        ≠ some n) := by
  constructor
  · intro rep ops k hrep hne
    exact ringCoverage
      (ringWF_applyOps (by simpa [HashRing.mk0] using hrep) (ringWF_mk0 rep) ops) hne k
  · intro rep ops0 ops n k hrep hops
    refine ringAvoids_getNode (ringAvoids_applyOps hops ?_) k
    exact ringAvoids_removeNode
      (ringWF_applyOps (by simpa [HashRing.mk0] using hrep) (ringWF_mk0 rep) ops0) n

/-- C6 (witness): coverage on the one-node ring built by addNode("0")
with 1 replica, and the removal guarantee for node "1" of a two-node
ring with no subsequent calls, at the key "a". -/
theorem C6_witness :
    (∃ n, n ∈ (applyOps (HashRing.mk0 1) [RingOp.add "0"]).nodes
      ∧ (applyOps (HashRing.mk0 1) [RingOp.add "0"]).getNode "a" = some n)
    ∧ (applyOps ((applyOps (HashRing.mk0 1)
        [RingOp.add "0", RingOp.add "1"]).removeNode "1") []).getNode "a"
      ≠ some "1" :=
  ⟨C6_amended_ring_coverage.1 1 [RingOp.add "0"] "a" (by decide) (by decide),
   C6_amended_ring_coverage.2 1 [RingOp.add "0", RingOp.add "1"] [] "1" "a"
     (by decide) (by decide)⟩

/-- C7 (counterexample): with capacity 1, a key just accessed via get is
still the next eviction victim: set(0, 5), get(0), then set(1, 6) evicts
(0, 5), so the "accessed keys are protected" reading fails at capacity
1. -/
theorem C7_counterexample :
    ((((⟨1, []⟩ : LRUc Nat Nat).set 0 5).1.get 0).2.set 1 6).2 = some (0, 5) := by
  decide

/-- C7 (amended): inserting capacity + 1 distinct keys into an LRU cache
of capacity at least 1 evicts exactly one entry, the first inserted
(least recently used), handing exactly that key and value to onEvict;
and in a cache of capacity at least 2, a key accessed via get immediately
before the insertion of a fresh key is never the entry that insertion
evicts. -/
theorem C7_amended_lru_eviction {K V : Type} [DecidableEq K] :
    (∀ (cap : Nat) (p q : K × V) (ps : List (K × V)), 1 ≤ cap →
      (p :: ps).length = cap →
      (((p :: ps) ++ [q]).map Prod.fst).Nodup →
      lruFoldSet (⟨cap, []⟩ : LRUc K V) ((p :: ps) ++ [q]) = (⟨cap, ps ++ [q]⟩, [p]))
    ∧ (∀ (cap : Nat) (E : List (K × V)) (k : K) (v : V) (kq : K) (vq : V) (w : V),
      (E.map Prod.fst).Nodup → E.length ≤ cap → 2 ≤ cap → (k, v) ∈ E →
      kq ∉ E.map Prod.fst →
      (((⟨cap, E⟩ : LRUc K V).get k).2.set kq vq).2 ≠ some (k, w)) := by
  constructor
  · intro cap p q ps hcap hlen hnd
    exact lru_eviction hcap p q ps hlen hnd
  · intro cap E k v kq vq w hnd hlen hcap hk hkq
    exact lru_get_protects hnd hlen hcap hk hkq w

/-- C7 (witness): a capacity-2 cache filled with keys 0 and 1 evicts
exactly (0, 10) when key 2 arrives; and with keys 0 and 1 resident,
get(0) followed by set(2, 12) does not evict key 0. -/
theorem C7_witness :
    lruFoldSet (⟨2, []⟩ : LRUc Nat Nat) (((0, 10) :: [(1, 11)]) ++ [(2, 12)])
      = (⟨2, [(1, 11)] ++ [(2, 12)]⟩, [(0, 10)])
    ∧ (((⟨2, [(0, 10), (1, 11)]⟩ : LRUc Nat Nat).get 0).2.set 2 12).2 ≠ some (0, 99) :=
  ⟨C7_amended_lru_eviction.1 2 (0, 10) (2, 12) [(1, 11)]
      (by decide) (by decide) (by decide),
   C7_amended_lru_eviction.2 2 [(0, 10), (1, 11)] 0 10 2 12 99
      (by decide) (by decide) (by decide) (by decide) (by decide)⟩

/-- C8 (counterexample): with 32 shards whose files average 600MB, the
claim's first branch prescribes a rebalance call with min(32, 64) = 32,
but the code makes no rebalance call at all, because the computed target
equals the current count. -/
theorem C8_counterexample :
    claimedAutoRebalanceTarget 32 c8Sizes = some 32
    ∧ autoRebalanceTarget 32 c8Sizes = none := by
  refine ⟨by decide, by decide⟩

/-- C8 (amended): autoRebalance computes exactly the claim's target —
min(32, 2n) above a 500MB average, max(2, n/2) below a 100MB average
with more than 2 shards, nothing otherwise — but issues the rebalance
call only when that target differs from the current shard count (the
skipped call would have been a no-op). -/
theorem C8_amended_auto_rebalance (n : Nat) (sizes : Nat → Option Nat) :
    autoRebalanceTarget n sizes
      = (claimedAutoRebalanceTarget n sizes).bind
          (fun m => if m = n then none else some m) :=
  autoRebalanceTarget_eq_claimed n sizes

/-- C2: scatter-gather ranking.  For shards holding pairwise-disjoint
documents, a scoring of each document against the one fixed query vector,
and per-shard limits at least each shard's matching-document count, the
merged result of search is sorted by descending score, has length
min(k, total matches), contains only genuine matches with their true
scores, and is a global top-k: every match left out scores no higher than
anything returned.  The conclusion mentions only the combined multiset of
matching documents, not their distribution over shards. -/
theorem C2_scatter_gather_top_k {α : Type} [DecidableEq α] (score : α → ℚ)
    (shards : List (List α)) (o : SearchOptions α)
    (hdisj : (shards.flatMap id).Nodup)
    (hlimit : ∀ s ∈ shards, (shardMatches score (repoShardQuery o) s).length
      ≤ (repoShardQuery o).limit.getD oramaDefaultLimit) :
    (repoSearch score shards o).Sorted scoreGe
    ∧ (repoSearch score shards o).length
        = min o.k (shards.flatMap (shardMatches score (repoShardQuery o))).length
    ∧ (∀ h ∈ repoSearch score shards o,
        h.1 ∈ shards.flatMap (shardMatches score (repoShardQuery o)) ∧ h.2 = score h.1)
    ∧ (∀ h ∈ repoSearch score shards o,
        ∀ d ∈ shards.flatMap (shardMatches score (repoShardQuery o)),
          (d, score d) ∉ repoSearch score shards o → score d ≤ h.2) := by
  have hperm := repoSearch_flat_perm score shards o hlimit
  have hres : repoSearch score shards o
      = ((shards.flatMap (oramaSearchHits score (repoShardQuery o))).insertionSort
          scoreGe).take o.k := rfl
  have hsort : ((shards.flatMap (oramaSearchHits score (repoShardQuery o))).insertionSort
      scoreGe).Sorted scoreGe := List.sorted_insertionSort scoreGe _
  have hsp : ((shards.flatMap (oramaSearchHits score (repoShardQuery o))).insertionSort
      scoreGe).Perm
      ((shards.flatMap (shardMatches score (repoShardQuery o))).map
        (fun d => (d, score d))) :=
    (List.perm_insertionSort scoreGe _).trans hperm
  refine ⟨?_, ?_, ?_, ?_⟩
  · rw [hres]
    exact List.Pairwise.sublist (List.take_sublist _ _) hsort
  · rw [hres, List.length_take, hsp.length_eq, List.length_map]
  · intro h hh
    rw [hres] at hh
    have hmem := List.mem_of_mem_take hh
    have hmap := hsp.mem_iff.mp hmem
    rw [List.mem_map] at hmap
    obtain ⟨d, hd, rfl⟩ := hmap
    exact ⟨hd, rfl⟩
  · intro h hh d hd hnot
    have hdm : (d, score d)
        ∈ (shards.flatMap (oramaSearchHits score (repoShardQuery o))).insertionSort
            scoreGe :=
      hsp.mem_iff.mpr (List.mem_map_of_mem _ hd)
    have hsplit := List.take_append_drop o.k
      ((shards.flatMap (oramaSearchHits score (repoShardQuery o))).insertionSort scoreGe)
    have hdrop : (d, score d)
        ∈ ((shards.flatMap (oramaSearchHits score (repoShardQuery o))).insertionSort
            scoreGe).drop o.k := by
      rcases List.mem_append.mp (by rw [hsplit]; exact hdm) with hin | hin
      · exact absurd (by rw [hres]; exact hin) hnot
      · exact hin
    have hpw : List.Pairwise scoreGe
        ((((shards.flatMap (oramaSearchHits score (repoShardQuery o))).insertionSort
            scoreGe).take o.k)
          ++ (((shards.flatMap (oramaSearchHits score (repoShardQuery o))).insertionSort
            scoreGe).drop o.k)) := by
      rw [hsplit]; exact hsort
    exact (List.pairwise_append.mp hpw).2.2 h (by rw [hres] at hh; exact hh) (d, score d)
      hdrop

/-- C2 (witness): the scatter-gather property at two concrete shards
{a, c} and {b} with scores 9, 5, 7 against the fixed query, k = 2 and
fetchK = 10. -/
theorem C2_witness :
    (repoSearch c2Score c2Shards c2Opts).Sorted scoreGe
    ∧ (repoSearch c2Score c2Shards c2Opts).length
        = min c2Opts.k (c2Shards.flatMap (shardMatches c2Score (repoShardQuery c2Opts))).length
    ∧ (∀ h ∈ repoSearch c2Score c2Shards c2Opts,
        h.1 ∈ c2Shards.flatMap (shardMatches c2Score (repoShardQuery c2Opts))
          ∧ h.2 = c2Score h.1)
    ∧ (∀ h ∈ repoSearch c2Score c2Shards c2Opts,
        ∀ d ∈ c2Shards.flatMap (shardMatches c2Score (repoShardQuery c2Opts)),
          (d, c2Score d) ∉ repoSearch c2Score c2Shards c2Opts → c2Score d ≤ h.2) :=
  C2_scatter_gather_top_k c2Score c2Shards c2Opts (by decide) (by decide)

/-- C10: diffMovedIds compares this ring's assignments against a freshly
constructed default ring — 100 replicas, whatever this ring's replica
count — over nodes "0" .. "newN-1", returning exactly the ids whose
assignment differs, with their sources and destinations; and the
replacement ring rebalance installs carries this.ring.replicasCount
replicas, so it is configured differently from that comparison ring
whenever the current ring's replica count is not 100. -/
theorem C10_diff_moved_ids :
    (∀ (r : HashRing) (n : Nat) (ids : List String), r.ring ≠ [] → 0 < n →
      r.diffMovedIds n ids = .ok (movedSpec r (buildRing n 100) ids))
    ∧ ∀ (s : SM) (newN : Nat), (s.rebalanceNewRing newN).replicas = s.ring.replicas := by
  constructor
  · intro r n ids hr hn
    exact diffMovedIds_ok ids hr hn
  · intro s newN
    unfold SM.rebalanceNewRing HashRing.replicasCount
    rw [buildRing_eq]
    exact buildRingOf_replicas _ _

/-- C10 (witness): diffMovedIds on a 2-replica ring with the single node
"a" against a 1-node target, for the single id "x"; and the replacement
ring for the concrete 4-shard manager state keeps its ring's replica
count. -/
theorem C10_witness :
    (buildRingOf ["a"] 2).diffMovedIds 1 ["x"]
      = .ok (movedSpec (buildRingOf ["a"] 2) (buildRing 1 100) ["x"])
    ∧ (c1State.rebalanceNewRing 8).replicas = c1State.ring.replicas :=
  ⟨C10_diff_moved_ids.1 (buildRingOf ["a"] 2) 1 ["x"] (by decide) (by decide),
   C10_diff_moved_ids.2 c1State 8⟩

/-- C9 (counterexample): a batch consisting of one document without an id
does not make saveMany fail: the call succeeds and leaves the store
unchanged — the document is silently skipped, not treated as an error. -/
theorem C9_counterexample :
    c9State.saveMany [⟨none⟩] = .ok c9State := rfl

/-- C9 (amended): saveMany silently skips documents without an id (the
partition loop's continue) and processes the rest of the batch exactly as
if the id-less documents had not been passed; it does not fail on their
account. -/
theorem C9_amended_savemany_skips_idless (s : SM) (docs : List SDoc) :
    s.saveMany docs = s.saveMany (docs.filter (fun d => d.id.isSome)) := by
  unfold SM.saveMany
  by_cases hEmpty : docs.isEmpty
  · rw [if_pos hEmpty,
      if_pos (by rw [List.isEmpty_iff.mp hEmpty]; rfl)]
  · rw [if_neg hEmpty]
    by_cases hf : (docs.filter (fun d => d.id.isSome)).isEmpty
    · rw [if_pos hf]
      have hall : ∀ d ∈ docs, d.id = none := by
        intro d hd
        cases hdid : d.id with
        | none => rfl
        | some i =>
          have : d ∈ docs.filter (fun d => d.id.isSome) :=
            List.mem_filter.mpr ⟨hd, by simp [hdid]⟩
          rw [List.isEmpty_iff.mp hf] at this
          cases this
      unfold SM.buildGroups
      rw [buildGroupsAux_allNone s hall, exceptBindOk]
      exact processGroups_allEmpty (initGroups_all_empty s)
    · rw [if_neg hf, buildGroups_filter s docs]

set_option maxRecDepth 1000000 in
/-- C3 (counterexample): a failure while moving one document rejects the
whole rebalance call — the relocation loop has no try/catch.  Concretely,
with "doc4" present in both shards of a 2-shard store (a duplicate such
as an earlier interrupted rebalance leaves behind), rebalance(1) moves
"doc4" from shard 1 to shard 0, the insert throws
DOCUMENT_ALREADY_DEFINED, and the whole call rejects with that error
instead of catching, logging and continuing. -/
theorem C3_counterexample :
    exceptMsg (c3State.rebalance 1) = some "DOCUMENT_ALREADY_DEFINED" := by
  decide

/-- C3 (amended): per-document move failures during rebalance are not
caught: an error raised by the first failing moveDocument propagates out
of the relocation loop unchanged, rejecting the whole call, and none of
the remaining moves is attempted. -/
theorem C3_amended_move_failure_rejects_rebalance (st : SM) (mv : Move)
    (ms : List Move) (e : String)
    (h : st.moveDocument mv.id (parseNode mv.fromNode) (parseNode mv.toNode) = .error e) :
    st.runMoves (mv :: ms) = .error e := by
  unfold SM.runMoves
  rw [List.foldlM_cons, h]
  rfl

/-- C3 (witness): the failing move of the counterexample state, alone at
the head of a move list, rejects the relocation loop with the same
error. -/
theorem C3_witness :
    c3State.moveDocument "doc4" 1 0 = .error "DOCUMENT_ALREADY_DEFINED"
    ∧ c3State.runMoves [⟨"doc4", "1", "0"⟩] = .error "DOCUMENT_ALREADY_DEFINED" := by
  have hmv : c3State.moveDocument "doc4" 1 0 = .error "DOCUMENT_ALREADY_DEFINED" := by
    rfl
  exact ⟨hmv,
    C3_amended_move_failure_rejects_rebalance c3State ⟨"doc4", "1", "0"⟩ []
      "DOCUMENT_ALREADY_DEFINED" hmv⟩

set_option maxRecDepth 1000000 in
set_option maxHeartbeats 8000000 in
/-- C1: rebalance can lose documents with every individual move
succeeding, because the first grow loop starts at this.cache.length
instead of the current shard count: growing a 4-shard store (cache
capacity 3, the default) to 8 shards replaces the cached, populated
shard 3 with a fresh empty one, which a later eviction then persists over
shard 3's file.  Concretely, "doc12" — routed to shard 3 by both the
4-node and the 8-node ring, so not moved at all — is present before
(1 document in total) and gone after (0 documents across all 8 shards). -/
theorem C1_rebalance_loses_documents :
    c1State.totalDocs 4 = 1
    ∧ (c1State.rebalance 8).toOption.map (fun s => s.totalDocs 8) = some 0 := by
  refine ⟨by decide, by decide⟩
